import Mathlib

/-!
# Verification of the MPI_IS Gaussian Process engine (PHD2 contribution)

The repository ships the test suite
(`contributions/MPI_IS_gaussian_process/tests/gaussian_process/gaussian_process_test.cpp`)
but the implementation units (`math_tools.cpp`, `covariance_functions.cpp`,
`gaussian_process.cpp`) are not present in the sources.  The definitions
below are therefore modelled from the specification (and are pinned, where
possible, by the reference values that appear verbatim in the in-repository
test suite).  All arithmetic is carried out over the real numbers: the
specification's floating-point tolerance checks are rendered as exact
equalities or as limit statements.
-/

open Real Matrix Filter Topology

namespace GPV

noncomputable section

/-! ## Math tools -/

/-- Modelled from the spec: `math_tools::squareDistance(A, B)` (the
implementation file `math_tools.cpp` is absent from the sources).  Returns the
matrix of pairwise squared Euclidean distances between the columns of `A` and
the columns of `B`, of shape `(cols A) × (cols B)`. -/
def squareDistance (A : Matrix (Fin d) (Fin m) ℝ) (B : Matrix (Fin d) (Fin n) ℝ) :
    Matrix (Fin m) (Fin n) ℝ :=
  Matrix.of fun i j => ∑ k, (A k i - B k j) ^ 2

/-- Modelled from the spec: the one-argument overload `squareDistance(A)`,
shorthand for `squareDistance(A, A)`. -/
def squareDistanceSelf (A : Matrix (Fin d) (Fin m) ℝ) : Matrix (Fin m) (Fin m) ℝ :=
  squareDistance A A

/-! ## Covariance functions

The kernel formulas are modelled from the spec together with the reference
matrices that the in-repository test suite pins down (for instance, the
`PeriodicSquareExponential` self-covariance at log-hyperparameters
`(1, 2, 3, 4)` has diagonal `403.4288 = exp 6`, which identifies the product
form and the parameter layout below). -/

/-- Modelled from the spec: the square-exponential factor
`exp (-d^2 / (2 * lsSE^2))` with the lengthscale stored in log space
(`lsSE = exp lsl`). -/
def seCore (lsl x y : ℝ) : ℝ :=
  Real.exp (-((x - y) ^ 2 * Real.exp (-(2 * lsl)) / 2))

/-- The angular argument `pi * d / periodLength` of the periodic factor, with
the period length stored in log space. -/
def perArg (pll x y : ℝ) : ℝ := π * (x - y) * Real.exp (-pll)

/-- Modelled from the spec: the periodic factor
`exp (-2 * sin (pi * d / plP)^2 / lsP^2)` with lengthscale and period stored
in log space. -/
def perCore (lsl pll x y : ℝ) : ℝ :=
  Real.exp (-(2 * Real.exp (-(2 * lsl)) * Real.sin (perArg pll x y) ^ 2))

/-- Squared signal variance `exp (2 * sfl)` for a log signal deviation. -/
def sf2 (sfl : ℝ) : ℝ := Real.exp (2 * sfl)

/-- Modelled from the spec: the `PeriodicSquareExponential` kernel (product of
a square-exponential and a periodic factor with one shared signal variance);
hyperparameters `(log lsP, log plP, log sf, log lsSE)`. -/
def pseK (θ : Fin 4 → ℝ) (x y : ℝ) : ℝ :=
  sf2 (θ 2) * (seCore (θ 3) x y * perCore (θ 0) (θ 1) x y)

/-- Modelled from the spec: the analytic gradient of `pseK` with respect to
hyperparameter `h`, as returned by `evaluate`. -/
def pseGrad (θ : Fin 4 → ℝ) (h : Fin 4) (x y : ℝ) : ℝ :=
  match h with
  | 0 => pseK θ x y * (4 * Real.exp (-(2 * θ 0)) * Real.sin (perArg (θ 1) x y) ^ 2)
  | 1 => pseK θ x y *
      (4 * Real.exp (-(2 * θ 0)) * Real.sin (perArg (θ 1) x y) * Real.cos (perArg (θ 1) x y) *
        perArg (θ 1) x y)
  | 2 => 2 * pseK θ x y
  | 3 => pseK θ x y * ((x - y) ^ 2 * Real.exp (-(2 * θ 3)))

/-- Modelled from the spec: the `PeriodicSquareExponential2` kernel (sum of a
long square-exponential, a periodic component whose period is the fixed extra
parameter `pl`, and a short square-exponential); hyperparameters
`(log lsSE1, log sfSE1, log lsP, log sfP, log lsSE2, log sfSE2)`. -/
def pse2K (θ : Fin 6 → ℝ) (pl x y : ℝ) : ℝ :=
  sf2 (θ 1) * seCore (θ 0) x y + sf2 (θ 3) * perCore (θ 2) pl x y +
    sf2 (θ 5) * seCore (θ 4) x y

/-- Modelled from the spec: the analytic gradient of `pse2K` with respect to
hyperparameter `h` (the fixed period `pl` is not differentiated). -/
def pse2Grad (θ : Fin 6 → ℝ) (pl : ℝ) (h : Fin 6) (x y : ℝ) : ℝ :=
  match h with
  | 0 => sf2 (θ 1) * seCore (θ 0) x y * ((x - y) ^ 2 * Real.exp (-(2 * θ 0)))
  | 1 => 2 * (sf2 (θ 1) * seCore (θ 0) x y)
  | 2 => sf2 (θ 3) * perCore (θ 2) pl x y *
      (4 * Real.exp (-(2 * θ 2)) * Real.sin (perArg pl x y) ^ 2)
  | 3 => 2 * (sf2 (θ 3) * perCore (θ 2) pl x y)
  | 4 => sf2 (θ 5) * seCore (θ 4) x y * ((x - y) ^ 2 * Real.exp (-(2 * θ 4)))
  | 5 => 2 * (sf2 (θ 5) * seCore (θ 4) x y)

/-- Modelled from the spec: the `SquareExponentialPeriodic` kernel (sum of a
periodic and a square-exponential component); hyperparameters
`(log lsP, log plP, log sfP, log lsSE, log sfSE)`. -/
def sepK (θ : Fin 5 → ℝ) (x y : ℝ) : ℝ :=
  sf2 (θ 2) * perCore (θ 0) (θ 1) x y + sf2 (θ 4) * seCore (θ 3) x y

/-- Modelled from the spec: the analytic gradient of `sepK` with respect to
hyperparameter `h`. -/
def sepGrad (θ : Fin 5 → ℝ) (h : Fin 5) (x y : ℝ) : ℝ :=
  match h with
  | 0 => sf2 (θ 2) * perCore (θ 0) (θ 1) x y *
      (4 * Real.exp (-(2 * θ 0)) * Real.sin (perArg (θ 1) x y) ^ 2)
  | 1 => sf2 (θ 2) * perCore (θ 0) (θ 1) x y *
      (4 * Real.exp (-(2 * θ 0)) * Real.sin (perArg (θ 1) x y) * Real.cos (perArg (θ 1) x y) *
        perArg (θ 1) x y)
  | 2 => 2 * (sf2 (θ 2) * perCore (θ 0) (θ 1) x y)
  | 3 => sf2 (θ 4) * seCore (θ 3) x y * ((x - y) ^ 2 * Real.exp (-(2 * θ 3)))
  | 4 => 2 * (sf2 (θ 4) * seCore (θ 3) x y)

/-- Modelled from the spec: `evaluate(X1, X2)` for `PeriodicSquareExponential`,
returning the covariance matrix together with one gradient matrix per
hyperparameter. -/
def pseEvaluate (θ : Fin 4 → ℝ) (X : Fin n → ℝ) (Y : Fin m → ℝ) :
    Matrix (Fin n) (Fin m) ℝ × (Fin 4 → Matrix (Fin n) (Fin m) ℝ) :=
  (Matrix.of fun i j => pseK θ (X i) (Y j),
   fun h => Matrix.of fun i j => pseGrad θ h (X i) (Y j))

/-- Modelled from the spec: `evaluate` for `PeriodicSquareExponential2` with
fixed extra (log) period `pl`. -/
def pse2Evaluate (θ : Fin 6 → ℝ) (pl : ℝ) (X : Fin n → ℝ) (Y : Fin m → ℝ) :
    Matrix (Fin n) (Fin m) ℝ × (Fin 6 → Matrix (Fin n) (Fin m) ℝ) :=
  (Matrix.of fun i j => pse2K θ pl (X i) (Y j),
   fun h => Matrix.of fun i j => pse2Grad θ pl h (X i) (Y j))

/-- Modelled from the spec: `evaluate` for `SquareExponentialPeriodic`. -/
def sepEvaluate (θ : Fin 5 → ℝ) (X : Fin n → ℝ) (Y : Fin m → ℝ) :
    Matrix (Fin n) (Fin m) ℝ × (Fin 5 → Matrix (Fin n) (Fin m) ℝ) :=
  (Matrix.of fun i j => sepK θ (X i) (Y j),
   fun h => Matrix.of fun i j => sepGrad θ h (X i) (Y j))

/-! ## The covariance-function capability interface -/

/-- Modelled from the spec: the capability interface of a covariance function
(`evaluate`, `setParameters`, `getParameterCount`).  `form` and `gradForm`
give the kernel and its analytic gradients as functions of the stored
hyperparameter list; `sized` is the invariant that the stored vector has the
variant-specific length. -/
structure CovFunction where
  count : ℕ
  form : List ℝ → ℝ → ℝ → ℝ
  gradForm : List ℝ → ℕ → ℝ → ℝ → ℝ
  params : List ℝ
  sized : params.length = count

/-- Modelled from the spec: `setParameters(v)` replaces the stored parameter
vector; it fails, leaving the state unchanged, when the length of `v` differs
from `getParameterCount()`. -/
def CovFunction.setParameters (cf : CovFunction) (v : List ℝ) : Bool × CovFunction :=
  if h : v.length = cf.count then (true, { cf with params := v, sized := h })
  else (false, cf)

/-- The covariance function currently denoted by `cf`. -/
def CovFunction.k (cf : CovFunction) : ℝ → ℝ → ℝ := cf.form cf.params

/-- Read a hyperparameter list as a `Fin`-indexed vector (missing entries 0). -/
def paramsFin (p : List ℝ) : Fin c → ℝ := fun i => p.getD i.val 0

/-- Modelled from the spec: `covariance_functions::PeriodicSquareExponential`
wrapped in the capability interface; its parameter count is 4. -/
def mkPeriodicSquareExponential (p : List ℝ) (hp : p.length = 4) : CovFunction :=
  { count := 4
    form := fun q x y => pseK (paramsFin q) x y
    gradForm := fun q h x y =>
      if hh : h < 4 then pseGrad (paramsFin q) ⟨h, hh⟩ x y else 0
    params := p
    sized := hp }

/-! ## Gaussian Process core -/

/-- The covariance matrix `K(X, Y)` of a kernel on two location sets. -/
def covMatrix (k : ℝ → ℝ → ℝ) (X : Fin n → ℝ) (Y : Fin m → ℝ) : Matrix (Fin n) (Fin m) ℝ :=
  Matrix.of fun i j => k (X i) (Y j)

/-- The regularized data covariance with an explicit noise variance `s2`:
`K(X,X) + s2 * I`. -/
def dataCovN (k : ℝ → ℝ → ℝ) (s2 : ℝ) (X : Fin n → ℝ) : Matrix (Fin n) (Fin n) ℝ :=
  covMatrix k X X + s2 • (1 : Matrix (Fin n) (Fin n) ℝ)

/-- Modelled from the spec: the regularized data covariance built by `infer`,
`K(X,X) + exp(2*θ0) * I` where `θ0` is the GP-level log noise scale. -/
def dataCov (k : ℝ → ℝ → ℝ) (ln : ℝ) (X : Fin n → ℝ) : Matrix (Fin n) (Fin n) ℝ :=
  dataCovN k (Real.exp (2 * ln)) X

/-- Modelled from the spec: the solve vector `alpha = K⁻¹ y`; the C++ obtains
it through the cached Cholesky factor, which in exact arithmetic equals the
product with the inverse. -/
def alphaOf (k : ℝ → ℝ → ℝ) (ln : ℝ) (X y : Fin n → ℝ) : Fin n → ℝ :=
  (dataCov k ln X)⁻¹ *ᵥ y

/-- Values of a list of reals as a `Fin`-indexed vector. -/
def vals (l : List ℝ) : Fin l.length → ℝ := fun i => l.get i

/-- Read a list as a vector of a given length (missing entries 0). -/
def vecOfList (l : List ℝ) : Fin n → ℝ := fun i => l.getD i.val 0

/-- Locations of a stored training set. -/
def locs (td : List (ℝ × ℝ)) : Fin td.length → ℝ := fun i => (td.get i).1

/-- Outputs of a stored training set. -/
def outs (td : List (ℝ × ℝ)) : Fin td.length → ℝ := fun i => (td.get i).2

/-- Modelled from the spec: the Gaussian Process state.  It owns one
covariance function, the GP-level log noise scale, the training set (present
exactly in the Inferred state) and the cached solve vector `alpha` derived
from the factorization. -/
structure GP where
  cov : CovFunction
  logNoise : ℝ
  training : Option (List (ℝ × ℝ))
  cache : List ℝ

/-- Modelled from the spec: `infer(locations, outputs)` stores the training
set, factorizes the regularized data covariance and caches the solve vector;
it transitions the GP to the Inferred state. -/
def GP.infer (gp : GP) (td : List (ℝ × ℝ)) : GP :=
  { gp with
    training := some td
    cache := List.ofFn (alphaOf gp.cov.k gp.logNoise (locs td) (outs td)) }

/-- Modelled from the spec: `clear()` discards the training set and the cached
factorization, returning the GP to the Empty state. -/
def GP.clear (gp : GP) : GP := { gp with training := none, cache := [] }

/-- Modelled from the spec: `setCovarianceFunction(cf)` replaces the owned
covariance function only while Empty; while Inferred it returns `false` and
performs no mutation. -/
def GP.setCovarianceFunction (gp : GP) (cf : CovFunction) : Bool × GP :=
  match gp.training with
  | none => (true, { gp with cov := cf })
  | some _ => (false, gp)

/-- Modelled from the spec: `getHyperParameters()` returns the GP-level log
noise scale followed by the covariance function's hyperparameters. -/
def GP.getHyperParameters (gp : GP) : List ℝ :=
  gp.logNoise :: gp.cov.params

/-- Modelled from the spec: `setHyperParameters(v)` takes the noise scale from
the first entry and delegates the rest to the covariance function; while
Inferred it re-derives the cached factorization from the newly set parameters
and the existing stored training set. -/
def GP.setHyperParameters (gp : GP) (v : List ℝ) : GP :=
  match v with
  | [] => gp
  | n0 :: rest =>
    if h : rest.length = gp.cov.count then
      let cov2 : CovFunction := { gp.cov with params := rest, sized := h }
      match gp.training with
      | some td =>
          { cov := cov2, logNoise := n0, training := some td
            cache := List.ofFn (alphaOf cov2.k n0 (locs td) (outs td)) }
      | none => { gp with cov := cov2, logNoise := n0 }
    else gp

/-- Modelled from the spec: `predict(locations)`.  From Empty it returns the
neutral zero-mean, zero-variance result; from Inferred it returns the
posterior mean `K(x*,X) * alpha` (through the cached solve vector) and the
posterior variance `K(x*,x*) - K(x*,X) * K(X,X)⁻¹ * K(X,x*)`. -/
def GP.predict (gp : GP) (q : List ℝ) : List ℝ × List ℝ :=
  match gp.training with
  | none => (q.map fun _ => 0, q.map fun _ => 0)
  | some td =>
    (List.ofFn fun j : Fin q.length =>
        (covMatrix gp.cov.k (vals q) (locs td) *ᵥ vecOfList gp.cache) j,
     List.ofFn fun j : Fin q.length =>
        (covMatrix gp.cov.k (vals q) (vals q) -
          covMatrix gp.cov.k (vals q) (locs td) *
            (dataCov gp.cov.k gp.logNoise (locs td))⁻¹ *
              covMatrix gp.cov.k (locs td) (vals q)) j j)

/-- The negative log-likelihood of a Gaussian with covariance `K` at `y`,
written the way the spec states it for `neg_log_likelihood()`:
`0.5 * (y^T * alpha + log |K| + n * log (2 pi))`. -/
def nllCore (K : Matrix (Fin n) (Fin n) ℝ) (y : Fin n → ℝ) : ℝ :=
  (y ⬝ᵥ (K⁻¹ *ᵥ y) + Real.log K.det + n * Real.log (2 * π)) / 2

/-- Modelled from the spec: `neg_log_likelihood()`, using the cached solve
vector and the current parameters (0 in the Empty state, where the value is
not meaningful). -/
def GP.neg_log_likelihood (gp : GP) : ℝ :=
  match gp.training with
  | none => 0
  | some td =>
    (outs td ⬝ᵥ vecOfList gp.cache +
        Real.log (dataCov gp.cov.k gp.logNoise (locs td)).det +
        td.length * Real.log (2 * π)) / 2

/-- Modelled from the spec: one component of `neg_log_likelihood_gradient()`.
The spec writes `0.5 * trace((alpha * alpha^T - K⁻¹) * dK)`, which is the
derivative of the log likelihood; the repository's own
`likelihood_derivative_test` requires agreement with the finite-difference
gradient of `neg_log_likelihood`, so the modelled code carries the sign that
satisfies that test: `0.5 * trace((K⁻¹ - alpha * alpha^T) * dK)`. -/
def nllGradEntry (K dK : Matrix (Fin n) (Fin n) ℝ) (y : Fin n → ℝ) : ℝ :=
  Matrix.trace ((K⁻¹ - vecMulVec (K⁻¹ *ᵥ y) (K⁻¹ *ᵥ y)) * dK) / 2

/-- The literal formula of the spec sentence for `neg_log_likelihood_gradient`,
`0.5 * trace((alpha * alpha^T - K⁻¹) * dK)`, stated for the refinement
comparison. -/
def specClaimGradEntry (K dK : Matrix (Fin n) (Fin n) ℝ) (y : Fin n → ℝ) : ℝ :=
  Matrix.trace ((vecMulVec (K⁻¹ *ᵥ y) (K⁻¹ *ᵥ y) - K⁻¹) * dK) / 2

/-- Modelled from the spec: the derivative of the regularized data covariance
with respect to hyperparameter `h` (noise first, then the kernel
hyperparameters). -/
def GP.dDataCov (gp : GP) (td : List (ℝ × ℝ)) (h : ℕ) :
    Matrix (Fin td.length) (Fin td.length) ℝ :=
  if h = 0 then
    (2 * Real.exp (2 * gp.logNoise)) • (1 : Matrix (Fin td.length) (Fin td.length) ℝ)
  else
    Matrix.of fun i j => gp.cov.gradForm gp.cov.params (h - 1) (locs td i) (locs td j)

/-- Modelled from the spec: `neg_log_likelihood_gradient()` returns one scalar
per hyperparameter (noise first, then the kernel hyperparameters), each a
trace term with the derivative of the data covariance with respect to that
hyperparameter. -/
def GP.neg_log_likelihood_gradient (gp : GP) : List ℝ :=
  match gp.training with
  | none => []
  | some td =>
    List.ofFn fun h : Fin (gp.cov.count + 1) =>
      nllGradEntry (dataCov gp.cov.k gp.logNoise (locs td)) (gp.dDataCov td h.val)
        (outs td)

/-- The closed-form Gaussian negative log-likelihood, written independently
as the negated logarithm of the multivariate normal density (the comparison
object of the spec's likelihood test). -/
def closedFormGaussianNLL (K : Matrix (Fin n) (Fin n) ℝ) (y : Fin n → ℝ) : ℝ :=
  -Real.log (Real.exp (-(y ⬝ᵥ (K⁻¹ *ᵥ y)) / 2) / Real.sqrt ((2 * π) ^ n * K.det))

/-! ## Claims about the math tools -/

/-- **C7**: for all matrices `A`, `B` with the same number of rows,
`squareDistance A B` is the transpose of `squareDistance B A`; supplying a
separate copy `C` of `A` gives the same result as supplying `A` twice; and the
one-argument form agrees with `squareDistance A A`. -/
theorem squareDistance_symm_copy_self (A : Matrix (Fin d) (Fin m) ℝ)
    (B : Matrix (Fin d) (Fin n) ℝ) (C : Matrix (Fin d) (Fin m) ℝ) (hC : C = A) :
    squareDistance A B = (squareDistance B A)ᵀ ∧
      squareDistance A C = squareDistance A A ∧
      squareDistanceSelf A = squareDistance A A := by
  refine ⟨?_, by rw [hC], rfl⟩
  ext i j
  simp only [squareDistance, transpose_apply, Matrix.of_apply]
  exact Finset.sum_congr rfl fun k _ => by ring

/-- Witness for C7 at a concrete input. -/
theorem squareDistance_symm_copy_self_witness :
    squareDistance (!![(1 : ℝ), 2; 3, 4]) (!![(5 : ℝ), 6; 7, 8]) =
        (squareDistance (!![(5 : ℝ), 6; 7, 8]) (!![(1 : ℝ), 2; 3, 4]))ᵀ ∧
      squareDistance (!![(1 : ℝ), 2; 3, 4]) (!![(1 : ℝ), 2; 3, 4]) =
        squareDistance (!![(1 : ℝ), 2; 3, 4]) (!![(1 : ℝ), 2; 3, 4]) ∧
      squareDistanceSelf (!![(1 : ℝ), 2; 3, 4]) =
        squareDistance (!![(1 : ℝ), 2; 3, 4]) (!![(1 : ℝ), 2; 3, 4]) :=
  squareDistance_symm_copy_self !![(1 : ℝ), 2; 3, 4] !![(5 : ℝ), 6; 7, 8]
    !![(1 : ℝ), 2; 3, 4] rfl

/-! ## Sample instances and helper lemmas -/

/-- A sample covariance function (the PeriodicSquareExponential of the test
fixture, log-hyperparameters `(1, 2, 3, 4)`). -/
def cfSample : CovFunction := mkPeriodicSquareExponential [1, 2, 3, 4] rfl

/-- A freshly constructed (Empty) GP around `cfSample`, log noise scale 0. -/
def gpEmpty : GP := { cov := cfSample, logNoise := 0, training := none, cache := [] }

/-- The sample GP after inferring the one-point training set `{(1, 1)}`. -/
def gpOne : GP := gpEmpty.infer [(1, 1)]

/-- A degenerate covariance function (identically zero kernel, no
hyperparameters), used to build concrete instances whose data covariance is
the identity. -/
def cfZero : CovFunction :=
  { count := 0
    form := fun _ _ _ => 0
    gradForm := fun _ _ _ _ => 0
    params := []
    sized := rfl }

/-- A GP around `cfZero` after inferring a three-point training set. -/
def gpZ3 : GP :=
  GP.infer { cov := cfZero, logNoise := 0, training := none, cache := [] }
    [(0, 1), (50, -1), (100, 1)]

theorem vecOfList_ofFn {nn : ℕ} (f : Fin nn → ℝ) :
    (vecOfList (List.ofFn f) : Fin nn → ℝ) = f := by
  funext i
  have hi : i.val < (List.ofFn f).length := by simp [i.isLt]
  simp [vecOfList, List.getD_eq_getElem?_getD, List.getElem?_eq_getElem hi]

theorem dataCov_zero_kernel (nn : ℕ) (X : Fin nn → ℝ) :
    dataCov cfZero.k 0 X = (1 : Matrix (Fin nn) (Fin nn) ℝ) := by
  ext i j
  simp [dataCov, dataCovN, covMatrix, cfZero, CovFunction.k, Matrix.one_apply]

/-! ## Claims about the state machine and interfaces -/

/-- **C9**: `setParameters(v)` fails if and only if the length of `v` differs
from `getParameterCount()`; on failure the stored parameter vector is
unchanged, on success it is replaced by `v`. -/
theorem setParameters_length_check (cf : CovFunction) (v : List ℝ) :
    (v.length ≠ cf.count → cf.setParameters v = (false, cf)) ∧
      (v.length = cf.count →
        (cf.setParameters v).1 = true ∧ ((cf.setParameters v).2).params = v) := by
  constructor
  · intro h
    simp [CovFunction.setParameters, h]
  · intro h
    simp [CovFunction.setParameters, h]

/-- Witness for C9 at concrete inputs: a wrong-length vector is rejected with
no mutation, a right-length vector is accepted and stored. -/
theorem setParameters_length_check_witness :
    cfSample.setParameters [1, 2] = (false, cfSample) ∧
      (cfSample.setParameters [9, 8, 7, 6]).1 = true ∧
      ((cfSample.setParameters [9, 8, 7, 6]).2).params = [9, 8, 7, 6] :=
  ⟨(setParameters_length_check cfSample [1, 2]).1 (by decide),
   (setParameters_length_check cfSample [9, 8, 7, 6]).2 (by decide)⟩

/-- **C5**: `setCovarianceFunction` succeeds and replaces the owned covariance
function while Empty (also right after `clear`), and fails with no mutation at
all while Inferred. -/
theorem setCovarianceFunction_state (gp : GP) (cf : CovFunction) :
    (gp.training = none →
        gp.setCovarianceFunction cf = (true, { gp with cov := cf })) ∧
      (gp.clear.setCovarianceFunction cf = (true, { gp.clear with cov := cf })) ∧
      (∀ td, gp.training = some td → gp.setCovarianceFunction cf = (false, gp)) := by
  refine ⟨fun h => ?_, ?_, fun td h => ?_⟩
  · simp [GP.setCovarianceFunction, h]
  · simp [GP.setCovarianceFunction, GP.clear]
  · simp [GP.setCovarianceFunction, h]

/-- Witness for C5: on the concrete Empty GP the call succeeds, on the
concrete Inferred GP it fails and leaves the state unchanged. -/
theorem setCovarianceFunction_state_witness :
    gpEmpty.setCovarianceFunction cfZero = (true, { gpEmpty with cov := cfZero }) ∧
      gpOne.setCovarianceFunction cfZero = (false, gpOne) :=
  ⟨(setCovarianceFunction_state gpEmpty cfZero).1 rfl,
   (setCovarianceFunction_state gpOne cfZero).2.2 [(1, 1)] rfl⟩

/-- **C6**: `predict` on an Empty GP is not an error: it returns zero mean and
zero variance at every query location; and `clear` discards the training set
and the cached factorization, after which `predict` again returns the neutral
zero result. -/
theorem predict_empty_neutral (gp : GP) (q : List ℝ) :
    (gp.training = none → gp.predict q = (q.map fun _ => 0, q.map fun _ => 0)) ∧
      gp.clear.training = none ∧
      gp.clear.cache = [] ∧
      gp.clear.predict q = (q.map fun _ => 0, q.map fun _ => 0) := by
  refine ⟨fun h => ?_, rfl, rfl, ?_⟩
  · simp [GP.predict, h]
  · simp [GP.predict, GP.clear]

/-- Witness for C6 on a concrete Empty GP and a concrete query. -/
theorem predict_empty_neutral_witness :
    gpEmpty.predict [1, 2] = ([0, 0], [0, 0]) ∧
      gpOne.clear.predict [1, 2] = ([0, 0], [0, 0]) := by
  have h1 := (predict_empty_neutral gpEmpty [1, 2]).1 rfl
  have h2 := (predict_empty_neutral gpOne [1, 2]).2.2.2
  constructor
  · rw [h1]; rfl
  · rw [h2]; rfl

/-- **C10**: the GP exposes one hyperparameter more than its covariance
function (5 for the PeriodicSquareExponential wrapper, whose parameter count
is 4); `setHyperParameters` stores the first entry as the GP-level log noise
scale and delegates the tail to the covariance function; and the noise enters
the regularized data covariance as `exp(2*θ0)` times the identity. -/
theorem hyperparameter_layout (gp : GP) (n0 : ℝ) (rest : List ℝ)
    (hlen : rest.length = gp.cov.count) :
    gp.getHyperParameters.length = gp.cov.count + 1 ∧
      cfSample.count = 4 ∧
      gpEmpty.getHyperParameters.length = 5 ∧
      (gp.setHyperParameters (n0 :: rest)).logNoise = n0 ∧
      (gp.setHyperParameters (n0 :: rest)).cov.params = rest ∧
      (∀ (nn : ℕ) (k : ℝ → ℝ → ℝ) (ln : ℝ) (X : Fin nn → ℝ) (i j : Fin nn),
        dataCov k ln X i j =
          k (X i) (X j) + if i = j then Real.exp (2 * ln) else 0) := by
  refine ⟨?_, rfl, rfl, ?_, ?_, ?_⟩
  · simp [GP.getHyperParameters, gp.cov.sized]
  · cases htr : gp.training <;>
      simp [GP.setHyperParameters, hlen, htr]
  · cases htr : gp.training <;>
      simp [GP.setHyperParameters, hlen, htr]
  · intro nn k ln X i j
    simp [dataCov, dataCovN, covMatrix, Matrix.one_apply, mul_ite]

/-- Witness for C10 at a concrete GP and hyperparameter vector. -/
theorem hyperparameter_layout_witness :
    gpEmpty.getHyperParameters.length = gpEmpty.cov.count + 1 ∧
      cfSample.count = 4 ∧
      gpEmpty.getHyperParameters.length = 5 ∧
      (gpEmpty.setHyperParameters (0 :: [5, 6, 7, 8])).logNoise = 0 ∧
      (gpEmpty.setHyperParameters (0 :: [5, 6, 7, 8])).cov.params = [5, 6, 7, 8] ∧
      (∀ (nn : ℕ) (k : ℝ → ℝ → ℝ) (ln : ℝ) (X : Fin nn → ℝ) (i j : Fin nn),
        dataCov k ln X i j =
          k (X i) (X j) + if i = j then Real.exp (2 * ln) else 0) :=
  hyperparameter_layout gpEmpty 0 [5, 6, 7, 8] rfl

/-- **C8**: calling `setHyperParameters v` on an Inferred GP re-derives the
cached factorization: the resulting state coincides with re-running `infer`
on the stored training set with the new parameters, so the subsequent
`neg_log_likelihood`, `neg_log_likelihood_gradient` and `predict` reflect the
newly set hyperparameters, never stale cached results. -/
theorem setHyperParameters_rederives (gp : GP) (td : List (ℝ × ℝ)) (n0 : ℝ)
    (rest : List ℝ) (htr : gp.training = some td)
    (hlen : rest.length = gp.cov.count) :
    gp.setHyperParameters (n0 :: rest) =
        GP.infer
          { gp with
            cov := { gp.cov with params := rest, sized := hlen }
            logNoise := n0 } td ∧
      (gp.setHyperParameters (n0 :: rest)).neg_log_likelihood =
        nllCore (dataCov (gp.cov.form rest) n0 (locs td)) (outs td) := by
  have hstate : gp.setHyperParameters (n0 :: rest) =
      GP.infer
        { gp with
          cov := { gp.cov with params := rest, sized := hlen }
          logNoise := n0 } td := by
    simp [GP.setHyperParameters, hlen, htr, GP.infer]
  refine ⟨hstate, ?_⟩
  rw [hstate]
  simp [GP.infer, GP.neg_log_likelihood, nllCore, vecOfList_ofFn, alphaOf,
    CovFunction.k]

/-- Witness for C8 on the concrete Inferred GP `gpOne` and a fresh
hyperparameter vector. -/
theorem setHyperParameters_rederives_witness :
    gpOne.setHyperParameters (0 :: [5, 6, 7, 8]) =
        GP.infer
          { gpOne with
            cov := { gpOne.cov with params := [5, 6, 7, 8], sized := rfl }
            logNoise := 0 } [(1, 1)] ∧
      (gpOne.setHyperParameters (0 :: [5, 6, 7, 8])).neg_log_likelihood =
        nllCore (dataCov (gpOne.cov.form [5, 6, 7, 8]) 0 (locs [(1, 1)]))
          (outs [(1, 1)]) :=
  setHyperParameters_rederives gpOne [(1, 1)] 0 [5, 6, 7, 8] rfl rfl

/-! ## The likelihood claim -/

theorem nllCore_eq_closedForm {nn : ℕ} (K : Matrix (Fin nn) (Fin nn) ℝ)
    (y : Fin nn → ℝ) (hpd : 0 < K.det) :
    nllCore K y = closedFormGaussianNLL K y := by
  have hpow : (0 : ℝ) < (2 * π) ^ nn := pow_pos (by positivity) nn
  have harg : (0 : ℝ) < (2 * π) ^ nn * K.det := mul_pos hpow hpd
  have hsqrt : Real.sqrt ((2 * π) ^ nn * K.det) ≠ 0 :=
    ne_of_gt (Real.sqrt_pos.mpr harg)
  rw [closedFormGaussianNLL, Real.log_div (Real.exp_ne_zero _) hsqrt,
    Real.log_exp, Real.log_sqrt harg.le,
    Real.log_mul (ne_of_gt hpow) (ne_of_gt hpd), Real.log_pow, nllCore]
  ring

/-- **C2**: in the Inferred state, `neg_log_likelihood()` returns
`0.5*(y^T*alpha + log|K| + n*log(2*pi))` for the regularized data covariance
`K` and the cached solve vector `alpha = K⁻¹*y`, and (whenever `K` has
positive determinant, in particular on the positive-definite covariances of a
successful `infer`) this equals the closed-form Gaussian negative
log-likelihood computed independently from the same covariance matrix —
exactly, hence within the 1e-6 tolerance. -/
theorem neg_log_likelihood_closed_form (gp : GP) (td : List (ℝ × ℝ))
    (htr : gp.training = some td)
    (hc : gp.cache = List.ofFn (alphaOf gp.cov.k gp.logNoise (locs td) (outs td)))
    (hpd : 0 < (dataCov gp.cov.k gp.logNoise (locs td)).det) :
    gp.neg_log_likelihood =
        nllCore (dataCov gp.cov.k gp.logNoise (locs td)) (outs td) ∧
      gp.neg_log_likelihood =
        closedFormGaussianNLL (dataCov gp.cov.k gp.logNoise (locs td)) (outs td) ∧
      |gp.neg_log_likelihood -
          closedFormGaussianNLL (dataCov gp.cov.k gp.logNoise (locs td))
            (outs td)| ≤ 1e-6 := by
  have h1 : gp.neg_log_likelihood =
      nllCore (dataCov gp.cov.k gp.logNoise (locs td)) (outs td) := by
    simp [GP.neg_log_likelihood, htr, hc, vecOfList_ofFn, nllCore, alphaOf]
  have h2 := h1.trans (nllCore_eq_closedForm _ _ hpd)
  refine ⟨h1, h2, ?_⟩
  rw [h2]
  norm_num

/-- Witness for C2 on a concrete GP with a three-point training set whose
regularized data covariance is the identity. -/
theorem neg_log_likelihood_closed_form_witness :
    gpZ3.neg_log_likelihood =
        nllCore (dataCov gpZ3.cov.k gpZ3.logNoise (locs [(0, 1), (50, -1), (100, 1)]))
          (outs [(0, 1), (50, -1), (100, 1)]) ∧
      gpZ3.neg_log_likelihood =
        closedFormGaussianNLL
          (dataCov gpZ3.cov.k gpZ3.logNoise (locs [(0, 1), (50, -1), (100, 1)]))
          (outs [(0, 1), (50, -1), (100, 1)]) ∧
      |gpZ3.neg_log_likelihood -
          closedFormGaussianNLL
            (dataCov gpZ3.cov.k gpZ3.logNoise (locs [(0, 1), (50, -1), (100, 1)]))
            (outs [(0, 1), (50, -1), (100, 1)])| ≤ 1e-6 := by
  have hpd : 0 < (dataCov gpZ3.cov.k gpZ3.logNoise
      (locs [(0, 1), (50, -1), (100, 1)])).det := by
    have h : dataCov gpZ3.cov.k gpZ3.logNoise (locs [(0, 1), (50, -1), (100, 1)]) =
        (1 : Matrix (Fin 3) (Fin 3) ℝ) := dataCov_zero_kernel 3 _
    rw [h, Matrix.det_one]
    norm_num
  exact neg_log_likelihood_closed_form gpZ3 [(0, 1), (50, -1), (100, 1)] rfl rfl hpd

/-! ## The interpolation claim -/

theorem cfSample_self (x : ℝ) : cfSample.k x x = Real.exp 6 := by
  simp only [cfSample, mkPeriodicSquareExponential, CovFunction.k, pseK, seCore,
    perCore, perArg, sf2, paramsFin, List.getD, sub_self]
  norm_num

theorem inv_one_dim (a : ℝ) :
    (Matrix.of fun _ _ : Fin 1 => a)⁻¹ = Matrix.of fun _ _ : Fin 1 => a⁻¹ := by
  rw [Matrix.inv_def]
  ext i j
  fin_cases i <;> fin_cases j <;>
    simp [Matrix.det_fin_one, Matrix.adjugate_fin_one, Ring.inverse_eq_inv,
      Matrix.one_apply]

theorem gpOne_dataCov :
    dataCov gpOne.cov.k gpOne.logNoise (locs [(1, 1)]) =
      Matrix.of fun _ _ : Fin 1 => Real.exp 6 + 1 := by
  have hk : gpOne.cov.k = cfSample.k := rfl
  have hln : gpOne.logNoise = 0 := rfl
  ext i j
  fin_cases i <;> fin_cases j <;>
    simp [dataCov, dataCovN, covMatrix, locs, hk, hln, cfSample_self,
      Matrix.one_apply, Real.exp_zero]

theorem gpOne_predict_mean :
    (gpOne.predict [1]).1.getD 0 0 = Real.exp 6 * (Real.exp 6 + 1)⁻¹ := by
  have htr : gpOne.training = some [(1, 1)] := rfl
  have hcache : gpOne.cache =
      List.ofFn (alphaOf gpOne.cov.k gpOne.logNoise (locs [(1, 1)])
        (outs [(1, 1)])) := rfl
  have halpha : alphaOf gpOne.cov.k gpOne.logNoise (locs [(1, 1)]) (outs [(1, 1)]) =
      fun _ => (Real.exp 6 + 1)⁻¹ := by
    funext i
    rw [alphaOf, gpOne_dataCov, inv_one_dim]
    fin_cases i
    simp [Matrix.mulVec, dotProduct, outs]
  have hk : gpOne.cov.k = cfSample.k := rfl
  simp only [GP.predict, htr, hcache, vecOfList_ofFn, halpha]
  rw [List.getD_eq_getElem?_getD]
  simp [Matrix.mulVec, dotProduct, covMatrix, vals, locs, hk, cfSample_self]

/-- **C1 counterexample**: the sample GP `gpOne` has successfully inferred the
training set `{(1, 1)}` (its regularized data covariance has positive
determinant), yet its prediction at the training location `1` misses the
training output `1` by more than `1e-6`, because the positive noise variance
`exp(2*θ0) = 1` shrinks the posterior mean to `exp 6 / (exp 6 + 1)`. -/
theorem predict_interpolation_counterexample :
    0 < (dataCov gpOne.cov.k gpOne.logNoise (locs [(1, 1)])).det ∧
      ¬ |(gpOne.predict [1]).1.getD 0 0 - 1| ≤ 1e-6 := by
  have hexp : Real.exp 6 < 406 := by
    have h1 : Real.exp 1 < 2.7182818286 := Real.exp_one_lt_d9
    have h6 : Real.exp 6 = Real.exp 1 ^ 6 := by
      rw [← Real.exp_nat_mul]; norm_num
    calc Real.exp 6 = Real.exp 1 ^ 6 := h6
      _ < 2.7182818286 ^ 6 := pow_lt_pow_left₀ h1 (Real.exp_pos 1).le (by norm_num)
      _ < 406 := by norm_num
  constructor
  · rw [gpOne_dataCov, Matrix.det_fin_one]
    have : (0 : ℝ) < Real.exp 6 + 1 := by positivity
    simpa using this
  · rw [gpOne_predict_mean]
    intro habs
    have hpos : (0 : ℝ) < Real.exp 6 + 1 := by positivity
    have hmean : Real.exp 6 * (Real.exp 6 + 1)⁻¹ - 1 = -(Real.exp 6 + 1)⁻¹ := by
      field_simp
    rw [hmean, abs_neg, abs_of_pos (by positivity)] at habs
    have hlt : ((1e6 : ℝ))⁻¹ < (Real.exp 6 + 1)⁻¹ :=
      inv_strictAnti₀ hpos (by nlinarith)
    norm_num at hlt habs
    linarith

/-- **C1 (amended)**: with the noise variance set to zero and an invertible
data covariance, the posterior mean of `predict` at the training locations
reproduces the training outputs exactly (hence within 1e-6); with a positive
noise variance the 1e-6 bound fails in general (see the counterexample); and
at a query location whose covariance with every training location vanishes
(the far-from-data case) the posterior mean is 0, materially different from
any training output that is not negligible. -/
theorem predict_interpolation_amended (nn : ℕ) (k : ℝ → ℝ → ℝ)
    (X y : Fin nn → ℝ) (hdet : IsUnit (dataCovN k 0 X).det) :
    (∀ i, (covMatrix k X X *ᵥ ((dataCovN k 0 X)⁻¹ *ᵥ y)) i = y i) ∧
      (∀ (x : ℝ) (v : Fin nn → ℝ), (∀ j, k x (X j) = 0) →
        (covMatrix k (fun _ : Fin 1 => x) X *ᵥ v) 0 = 0) := by
  have h0 : dataCovN k 0 X = covMatrix k X X := by
    simp [dataCovN]
  constructor
  · intro i
    rw [h0] at hdet ⊢
    rw [Matrix.mulVec_mulVec, Matrix.mul_nonsing_inv _ hdet, Matrix.one_mulVec]
  · intro x v hx
    simp only [Matrix.mulVec, dotProduct, covMatrix, Matrix.of_apply]
    exact Finset.sum_eq_zero fun j _ => by rw [hx j, zero_mul]

/-- Witness for the amended C1 on a one-point training set with the constant
kernel 1, zero noise, and training output 5. -/
theorem predict_interpolation_amended_witness :
    (∀ i : Fin 1, (covMatrix (fun _ _ => 1) ![(1 : ℝ)] ![(1 : ℝ)] *ᵥ
        ((dataCovN (fun _ _ => 1) 0 ![(1 : ℝ)])⁻¹ *ᵥ ![(5 : ℝ)])) i = ![(5 : ℝ)] i) ∧
      (∀ (x : ℝ) (v : Fin 1 → ℝ), (∀ j, (fun _ _ => (1 : ℝ)) x (![(1 : ℝ)] j) = 0) →
        (covMatrix (fun _ _ => 1) (fun _ : Fin 1 => x) ![(1 : ℝ)] *ᵥ v) 0 = 0) :=
  predict_interpolation_amended 1 (fun _ _ => 1) ![(1 : ℝ)] ![(5 : ℝ)]
    (by simp [dataCovN, covMatrix, Matrix.det_fin_one])

/-! ## Derivatives of the kernel components

The finite-difference checks of the test suite are rendered in exact
arithmetic: the analytic gradient is the true derivative, and the central
difference quotient converges to it as the step tends to 0. -/

theorem tendsto_centralDiff {f : ℝ → ℝ} {d x : ℝ} (hf : HasDerivAt f d x) :
    Tendsto (fun ε => (f (x + ε) - f (x - ε)) / (2 * ε)) (𝓝[≠] (0 : ℝ)) (𝓝 d) := by
  have hplus : Tendsto (fun ε : ℝ => ε⁻¹ * (f (x + ε) - f x)) (𝓝[≠] (0 : ℝ)) (𝓝 d) := by
    simpa [smul_eq_mul] using hf.tendsto_slope_zero
  have hneg : Tendsto (fun ε : ℝ => -ε) (𝓝[≠] (0 : ℝ)) (𝓝[≠] (0 : ℝ)) := by
    refine Filter.Tendsto.inf ?_ ?_
    · simpa using (continuous_neg.tendsto (0 : ℝ))
    · exact tendsto_principal_principal.2 fun ε hε => neg_ne_zero.2 hε
  have hminus : Tendsto (fun ε : ℝ => (-ε)⁻¹ * (f (x + -ε) - f x)) (𝓝[≠] (0 : ℝ)) (𝓝 d) :=
    hplus.comp hneg
  have hcomb : Tendsto
      (fun ε : ℝ => (ε⁻¹ * (f (x + ε) - f x) + (-ε)⁻¹ * (f (x + -ε) - f x)) / 2)
      (𝓝[≠] (0 : ℝ)) (𝓝 ((d + d) / 2)) := (hplus.add hminus).div_const 2
  have hd2 : (d + d) / 2 = d := by ring
  rw [hd2] at hcomb
  refine hcomb.congr' ?_
  filter_upwards [self_mem_nhdsWithin] with ε hε
  have hε0 : ε ≠ 0 := hε
  rw [sub_eq_add_neg x ε, inv_neg]
  ring

theorem hasDerivAt_sf2 (sfl : ℝ) : HasDerivAt sf2 (2 * sf2 sfl) sfl := by
  have h1 : HasDerivAt (fun t : ℝ => 2 * t) 2 sfl := by
    simpa using (hasDerivAt_id sfl).const_mul (2 : ℝ)
  have h2 := h1.exp
  convert h2 using 1
  simp [sf2]
  ring

theorem hasDerivAt_seCore (x y lsl : ℝ) :
    HasDerivAt (fun t => seCore t x y)
      (seCore lsl x y * ((x - y) ^ 2 * Real.exp (-(2 * lsl)))) lsl := by
  have h1 : HasDerivAt (fun t : ℝ => -(2 * t)) (-2) lsl := by
    simpa using ((hasDerivAt_id lsl).const_mul (2 : ℝ)).neg
  have h2 := h1.exp
  have h3 := ((h2.const_mul ((x - y) ^ 2)).div_const 2).neg
  have h4 := h3.exp
  convert h4 using 1
  simp [seCore]
  ring

theorem hasDerivAt_perCore_ls (x y pll lsl : ℝ) :
    HasDerivAt (fun t => perCore t pll x y)
      (perCore lsl pll x y *
        (4 * Real.exp (-(2 * lsl)) * Real.sin (perArg pll x y) ^ 2)) lsl := by
  have h1 : HasDerivAt (fun t : ℝ => -(2 * t)) (-2) lsl := by
    simpa using ((hasDerivAt_id lsl).const_mul (2 : ℝ)).neg
  have h2 := h1.exp
  have h3 := ((h2.const_mul (2 : ℝ)).mul_const (Real.sin (perArg pll x y) ^ 2)).neg
  have h4 := h3.exp
  convert h4 using 1
  simp only [perCore]
  ring

theorem hasDerivAt_perArg (x y pll : ℝ) :
    HasDerivAt (fun t => perArg t x y) (-(perArg pll x y)) pll := by
  have h0 : HasDerivAt (fun t : ℝ => -t) (-1 : ℝ) pll := (hasDerivAt_id pll).neg
  have h1 := h0.exp
  have h2 := h1.const_mul (π * (x - y))
  convert h2 using 1
  simp [perArg]

theorem hasDerivAt_perCore_pl (x y lsl pll : ℝ) :
    HasDerivAt (fun t => perCore lsl t x y)
      (perCore lsl pll x y *
        (4 * Real.exp (-(2 * lsl)) * Real.sin (perArg pll x y) *
          Real.cos (perArg pll x y) * perArg pll x y)) pll := by
  have hs := (hasDerivAt_perArg x y pll).sin
  have hs2 := hs.pow 2
  have h3 := ((hs2.const_mul (Real.exp (-(2 * lsl)))).const_mul (2 : ℝ)).neg
  have h4 := h3.exp
  have hfe : (fun t => perCore lsl t x y) =
      fun t => Real.exp (-(2 * (Real.exp (-(2 * lsl)) * Real.sin (perArg t x y) ^ 2))) := by
    funext t
    simp only [perCore]
    ring_nf
  rw [hfe]
  convert h4 using 1
  simp only [perCore]
  ring

theorem hasDerivAt_pseK_update (θ : Fin 4 → ℝ) (h : Fin 4) (x y : ℝ) :
    HasDerivAt (fun t => pseK (Function.update θ h t) x y) (pseGrad θ h x y) (θ h) := by
  fin_cases h
  · show HasDerivAt (fun t => pseK (Function.update θ 0 t) x y) (pseGrad θ 0 x y) (θ 0)
    have hfe : (fun t => pseK (Function.update θ 0 t) x y) =
        fun t => sf2 (θ 2) * (seCore (θ 3) x y * perCore t (θ 1) x y) := by
      funext t
      simp [pseK, Function.update_apply]
    rw [hfe]
    have hd := ((hasDerivAt_perCore_ls x y (θ 1) (θ 0)).const_mul
      (seCore (θ 3) x y)).const_mul (sf2 (θ 2))
    convert hd using 1
    simp only [pseGrad, pseK]
    ring
  · show HasDerivAt (fun t => pseK (Function.update θ 1 t) x y) (pseGrad θ 1 x y) (θ 1)
    have hfe : (fun t => pseK (Function.update θ 1 t) x y) =
        fun t => sf2 (θ 2) * (seCore (θ 3) x y * perCore (θ 0) t x y) := by
      funext t
      simp [pseK, Function.update_apply]
    rw [hfe]
    have hd := ((hasDerivAt_perCore_pl x y (θ 0) (θ 1)).const_mul
      (seCore (θ 3) x y)).const_mul (sf2 (θ 2))
    convert hd using 1
    simp only [pseGrad, pseK]
    ring
  · show HasDerivAt (fun t => pseK (Function.update θ 2 t) x y) (pseGrad θ 2 x y) (θ 2)
    have hfe : (fun t => pseK (Function.update θ 2 t) x y) =
        fun t => sf2 t * (seCore (θ 3) x y * perCore (θ 0) (θ 1) x y) := by
      funext t
      simp [pseK, Function.update_apply]
    rw [hfe]
    have hd := (hasDerivAt_sf2 (θ 2)).mul_const
      (seCore (θ 3) x y * perCore (θ 0) (θ 1) x y)
    convert hd using 1
    simp only [pseGrad, pseK]
    ring
  · show HasDerivAt (fun t => pseK (Function.update θ 3 t) x y) (pseGrad θ 3 x y) (θ 3)
    have hfe : (fun t => pseK (Function.update θ 3 t) x y) =
        fun t => sf2 (θ 2) * (seCore t x y * perCore (θ 0) (θ 1) x y) := by
      funext t
      simp [pseK, Function.update_apply]
    rw [hfe]
    have hd := (((hasDerivAt_seCore x y (θ 3)).mul_const
      (perCore (θ 0) (θ 1) x y)).const_mul (sf2 (θ 2)))
    convert hd using 1
    simp only [pseGrad, pseK]
    ring

theorem hasDerivAt_pse2K_update (θ : Fin 6 → ℝ) (pl : ℝ) (h : Fin 6) (x y : ℝ) :
    HasDerivAt (fun t => pse2K (Function.update θ h t) pl x y)
      (pse2Grad θ pl h x y) (θ h) := by
  fin_cases h
  · show HasDerivAt (fun t => pse2K (Function.update θ 0 t) pl x y) (pse2Grad θ pl 0 x y) (θ 0)
    have hfe : (fun t => pse2K (Function.update θ 0 t) pl x y) =
        fun t => sf2 (θ 1) * seCore t x y + sf2 (θ 3) * perCore (θ 2) pl x y +
          sf2 (θ 5) * seCore (θ 4) x y := by
      funext t
      simp [pse2K, Function.update_apply]
    rw [hfe]
    have hd := (((hasDerivAt_seCore x y (θ 0)).const_mul (sf2 (θ 1))).add_const
      (sf2 (θ 3) * perCore (θ 2) pl x y)).add_const (sf2 (θ 5) * seCore (θ 4) x y)
    convert hd using 1
    simp only [pse2Grad]
    ring
  · show HasDerivAt (fun t => pse2K (Function.update θ 1 t) pl x y) (pse2Grad θ pl 1 x y) (θ 1)
    have hfe : (fun t => pse2K (Function.update θ 1 t) pl x y) =
        fun t => sf2 t * seCore (θ 0) x y + sf2 (θ 3) * perCore (θ 2) pl x y +
          sf2 (θ 5) * seCore (θ 4) x y := by
      funext t
      simp [pse2K, Function.update_apply]
    rw [hfe]
    have hd := (((hasDerivAt_sf2 (θ 1)).mul_const (seCore (θ 0) x y)).add_const
      (sf2 (θ 3) * perCore (θ 2) pl x y)).add_const (sf2 (θ 5) * seCore (θ 4) x y)
    convert hd using 1
    simp only [pse2Grad]
    ring
  · show HasDerivAt (fun t => pse2K (Function.update θ 2 t) pl x y) (pse2Grad θ pl 2 x y) (θ 2)
    have hfe : (fun t => pse2K (Function.update θ 2 t) pl x y) =
        fun t => sf2 (θ 1) * seCore (θ 0) x y + sf2 (θ 3) * perCore t pl x y +
          sf2 (θ 5) * seCore (θ 4) x y := by
      funext t
      simp [pse2K, Function.update_apply]
    rw [hfe]
    have hd := ((((hasDerivAt_perCore_ls x y pl (θ 2)).const_mul (sf2 (θ 3))).const_add
      (sf2 (θ 1) * seCore (θ 0) x y)).add_const (sf2 (θ 5) * seCore (θ 4) x y))
    convert hd using 1
    simp only [pse2Grad]
    ring
  · show HasDerivAt (fun t => pse2K (Function.update θ 3 t) pl x y) (pse2Grad θ pl 3 x y) (θ 3)
    have hfe : (fun t => pse2K (Function.update θ 3 t) pl x y) =
        fun t => sf2 (θ 1) * seCore (θ 0) x y + sf2 t * perCore (θ 2) pl x y +
          sf2 (θ 5) * seCore (θ 4) x y := by
      funext t
      simp [pse2K, Function.update_apply]
    rw [hfe]
    have hd := ((((hasDerivAt_sf2 (θ 3)).mul_const (perCore (θ 2) pl x y)).const_add
      (sf2 (θ 1) * seCore (θ 0) x y)).add_const (sf2 (θ 5) * seCore (θ 4) x y))
    convert hd using 1
    simp only [pse2Grad]
    ring
  · show HasDerivAt (fun t => pse2K (Function.update θ 4 t) pl x y) (pse2Grad θ pl 4 x y) (θ 4)
    have hfe : (fun t => pse2K (Function.update θ 4 t) pl x y) =
        fun t => sf2 (θ 1) * seCore (θ 0) x y + sf2 (θ 3) * perCore (θ 2) pl x y +
          sf2 (θ 5) * seCore t x y := by
      funext t
      simp [pse2K, Function.update_apply]
    rw [hfe]
    have hd := (((hasDerivAt_seCore x y (θ 4)).const_mul (sf2 (θ 5))).const_add
      (sf2 (θ 1) * seCore (θ 0) x y + sf2 (θ 3) * perCore (θ 2) pl x y))
    convert hd using 1
    simp only [pse2Grad]
    ring
  · show HasDerivAt (fun t => pse2K (Function.update θ 5 t) pl x y) (pse2Grad θ pl 5 x y) (θ 5)
    have hfe : (fun t => pse2K (Function.update θ 5 t) pl x y) =
        fun t => sf2 (θ 1) * seCore (θ 0) x y + sf2 (θ 3) * perCore (θ 2) pl x y +
          sf2 t * seCore (θ 4) x y := by
      funext t
      simp [pse2K, Function.update_apply]
    rw [hfe]
    have hd := (((hasDerivAt_sf2 (θ 5)).mul_const (seCore (θ 4) x y)).const_add
      (sf2 (θ 1) * seCore (θ 0) x y + sf2 (θ 3) * perCore (θ 2) pl x y))
    convert hd using 1
    simp only [pse2Grad]
    ring

theorem hasDerivAt_sepK_update (θ : Fin 5 → ℝ) (h : Fin 5) (x y : ℝ) :
    HasDerivAt (fun t => sepK (Function.update θ h t) x y) (sepGrad θ h x y) (θ h) := by
  fin_cases h
  · show HasDerivAt (fun t => sepK (Function.update θ 0 t) x y) (sepGrad θ 0 x y) (θ 0)
    have hfe : (fun t => sepK (Function.update θ 0 t) x y) =
        fun t => sf2 (θ 2) * perCore t (θ 1) x y + sf2 (θ 4) * seCore (θ 3) x y := by
      funext t
      simp [sepK, Function.update_apply]
    rw [hfe]
    have hd := ((hasDerivAt_perCore_ls x y (θ 1) (θ 0)).const_mul (sf2 (θ 2))).add_const
      (sf2 (θ 4) * seCore (θ 3) x y)
    convert hd using 1
    simp only [sepGrad]
    ring
  · show HasDerivAt (fun t => sepK (Function.update θ 1 t) x y) (sepGrad θ 1 x y) (θ 1)
    have hfe : (fun t => sepK (Function.update θ 1 t) x y) =
        fun t => sf2 (θ 2) * perCore (θ 0) t x y + sf2 (θ 4) * seCore (θ 3) x y := by
      funext t
      simp [sepK, Function.update_apply]
    rw [hfe]
    have hd := ((hasDerivAt_perCore_pl x y (θ 0) (θ 1)).const_mul (sf2 (θ 2))).add_const
      (sf2 (θ 4) * seCore (θ 3) x y)
    convert hd using 1
    simp only [sepGrad]
    ring
  · show HasDerivAt (fun t => sepK (Function.update θ 2 t) x y) (sepGrad θ 2 x y) (θ 2)
    have hfe : (fun t => sepK (Function.update θ 2 t) x y) =
        fun t => sf2 t * perCore (θ 0) (θ 1) x y + sf2 (θ 4) * seCore (θ 3) x y := by
      funext t
      simp [sepK, Function.update_apply]
    rw [hfe]
    have hd := ((hasDerivAt_sf2 (θ 2)).mul_const (perCore (θ 0) (θ 1) x y)).add_const
      (sf2 (θ 4) * seCore (θ 3) x y)
    convert hd using 1
    simp only [sepGrad]
    ring
  · show HasDerivAt (fun t => sepK (Function.update θ 3 t) x y) (sepGrad θ 3 x y) (θ 3)
    have hfe : (fun t => sepK (Function.update θ 3 t) x y) =
        fun t => sf2 (θ 2) * perCore (θ 0) (θ 1) x y + sf2 (θ 4) * seCore t x y := by
      funext t
      simp [sepK, Function.update_apply]
    rw [hfe]
    have hd := ((hasDerivAt_seCore x y (θ 3)).const_mul (sf2 (θ 4))).const_add
      (sf2 (θ 2) * perCore (θ 0) (θ 1) x y)
    convert hd using 1
    simp only [sepGrad]
    ring
  · show HasDerivAt (fun t => sepK (Function.update θ 4 t) x y) (sepGrad θ 4 x y) (θ 4)
    have hfe : (fun t => sepK (Function.update θ 4 t) x y) =
        fun t => sf2 (θ 2) * perCore (θ 0) (θ 1) x y + sf2 t * seCore (θ 3) x y := by
      funext t
      simp [sepK, Function.update_apply]
    rw [hfe]
    have hd := ((hasDerivAt_sf2 (θ 4)).mul_const (seCore (θ 3) x y)).const_add
      (sf2 (θ 2) * perCore (θ 0) (θ 1) x y)
    convert hd using 1
    simp only [sepGrad]
    ring

/-- **C4**: for every kernel variant, every hyperparameter index `h` and every
pair of identical location sets, the `h`-th gradient matrix returned by
`evaluate` is, entry by entry, the true derivative of the covariance matrix
with respect to hyperparameter `h`; consequently the central finite-difference
quotient of the covariance matrix converges to the analytic gradient as the
step tends to 0 (the exact-arithmetic form of the step-`1e-6`,
tolerance-`1e-6` check). -/
theorem covariance_gradients_are_derivatives :
    (∀ (θ : Fin 4 → ℝ) (h : Fin 4) (nn : ℕ) (X : Fin nn → ℝ) (i j : Fin nn),
        HasDerivAt (fun t => (pseEvaluate (Function.update θ h t) X X).1 i j)
          ((pseEvaluate θ X X).2 h i j) (θ h) ∧
        Tendsto
          (fun ε => ((pseEvaluate (Function.update θ h (θ h + ε)) X X).1 i j -
              (pseEvaluate (Function.update θ h (θ h - ε)) X X).1 i j) / (2 * ε))
          (𝓝[≠] (0 : ℝ)) (𝓝 ((pseEvaluate θ X X).2 h i j))) ∧
      (∀ (θ : Fin 6 → ℝ) (pl : ℝ) (h : Fin 6) (nn : ℕ) (X : Fin nn → ℝ) (i j : Fin nn),
        HasDerivAt (fun t => (pse2Evaluate (Function.update θ h t) pl X X).1 i j)
          ((pse2Evaluate θ pl X X).2 h i j) (θ h) ∧
        Tendsto
          (fun ε => ((pse2Evaluate (Function.update θ h (θ h + ε)) pl X X).1 i j -
              (pse2Evaluate (Function.update θ h (θ h - ε)) pl X X).1 i j) / (2 * ε))
          (𝓝[≠] (0 : ℝ)) (𝓝 ((pse2Evaluate θ pl X X).2 h i j))) ∧
      (∀ (θ : Fin 5 → ℝ) (h : Fin 5) (nn : ℕ) (X : Fin nn → ℝ) (i j : Fin nn),
        HasDerivAt (fun t => (sepEvaluate (Function.update θ h t) X X).1 i j)
          ((sepEvaluate θ X X).2 h i j) (θ h) ∧
        Tendsto
          (fun ε => ((sepEvaluate (Function.update θ h (θ h + ε)) X X).1 i j -
              (sepEvaluate (Function.update θ h (θ h - ε)) X X).1 i j) / (2 * ε))
          (𝓝[≠] (0 : ℝ)) (𝓝 ((sepEvaluate θ X X).2 h i j))) := by
  refine ⟨fun θ h nn X i j => ?_, fun θ pl h nn X i j => ?_, fun θ h nn X i j => ?_⟩
  · have hupd := hasDerivAt_pseK_update θ h (X i) (X j)
    have hK : ∀ θ2 : Fin 4 → ℝ, (pseEvaluate θ2 X X).1 i j = pseK θ2 (X i) (X j) :=
      fun _ => rfl
    have hG : (pseEvaluate θ X X).2 h i j = pseGrad θ h (X i) (X j) := rfl
    constructor
    · simp only [hK, hG]
      exact hupd
    · simp only [hK, hG]
      exact @tendsto_centralDiff (fun t => pseK (Function.update θ h t) (X i) (X j)) _ _ hupd
  · have hupd := hasDerivAt_pse2K_update θ pl h (X i) (X j)
    have hK : ∀ θ2 : Fin 6 → ℝ, (pse2Evaluate θ2 pl X X).1 i j = pse2K θ2 pl (X i) (X j) :=
      fun _ => rfl
    have hG : (pse2Evaluate θ pl X X).2 h i j = pse2Grad θ pl h (X i) (X j) := rfl
    constructor
    · simp only [hK, hG]
      exact hupd
    · simp only [hK, hG]
      exact @tendsto_centralDiff (fun t => pse2K (Function.update θ h t) pl (X i) (X j)) _ _ hupd
  · have hupd := hasDerivAt_sepK_update θ h (X i) (X j)
    have hK : ∀ θ2 : Fin 5 → ℝ, (sepEvaluate θ2 X X).1 i j = sepK θ2 (X i) (X j) :=
      fun _ => rfl
    have hG : (sepEvaluate θ X X).2 h i j = sepGrad θ h (X i) (X j) := rfl
    constructor
    · simp only [hK, hG]
      exact hupd
    · simp only [hK, hG]
      exact @tendsto_centralDiff (fun t => sepK (Function.update θ h t) (X i) (X j)) _ _ hupd

/-! ## Matrix calculus: Jacobi's formula and the derivative of the inverse -/

theorem det_updateColumn_expand {nn : ℕ} (M : Matrix (Fin nn) (Fin nn) ℝ)
    (c : Fin nn → ℝ) (i : Fin nn) :
    (M.updateColumn i c).det =
      ∑ σ : Equiv.Perm (Fin nn), ((Equiv.Perm.sign σ : ℤ) : ℝ) *
        ((∏ j ∈ Finset.univ.erase i, M (σ j) j) * c (σ i)) := by
  rw [Matrix.det_apply']
  refine Finset.sum_congr rfl fun σ _ => ?_
  congr 1
  rw [← Finset.mul_prod_erase Finset.univ _ (Finset.mem_univ i),
    Matrix.updateColumn_self,
    Finset.prod_congr rfl fun j hj =>
      Matrix.updateColumn_ne (Finset.ne_of_mem_erase hj)]
  ring

theorem trace_adjugate_mul_eq_sum_det {nn : ℕ} (M N : Matrix (Fin nn) (Fin nn) ℝ) :
    Matrix.trace (Matrix.adjugate M * N) =
      ∑ i, (M.updateColumn i (fun r => N r i)).det := by
  simp only [Matrix.trace, Matrix.diag]
  refine Finset.sum_congr rfl fun i _ => ?_
  have h1 : (Matrix.adjugate M * N) i i = (Matrix.adjugate M *ᵥ fun r => N r i) i := by
    simp [Matrix.mul_apply, Matrix.mulVec, dotProduct]
  rw [h1, ← Matrix.cramer_eq_adjugate_mulVec, Matrix.cramer_apply]

/-- Jacobi's formula: the derivative of the determinant of a matrix family
with entrywise derivatives `Kd` is the trace of `adjugate * Kd`. -/
theorem hasDerivAt_det {nn : ℕ} (K : ℝ → Matrix (Fin nn) (Fin nn) ℝ)
    (Kd : Matrix (Fin nn) (Fin nn) ℝ) (θ : ℝ)
    (hK : ∀ i j, HasDerivAt (fun t => K t i j) (Kd i j) θ) :
    HasDerivAt (fun t => (K t).det)
      (Matrix.trace (Matrix.adjugate (K θ) * Kd)) θ := by
  have hfun : (fun t => (K t).det) =
      fun t => ∑ σ : Equiv.Perm (Fin nn),
        ((Equiv.Perm.sign σ : ℤ) : ℝ) * ∏ i, K t (σ i) i := by
    funext t
    exact Matrix.det_apply' (K t)
  rw [hfun]
  have hσ : ∀ σ : Equiv.Perm (Fin nn),
      HasDerivAt (fun t => ((Equiv.Perm.sign σ : ℤ) : ℝ) * ∏ i, K t (σ i) i)
        (((Equiv.Perm.sign σ : ℤ) : ℝ) *
          ∑ i, (∏ j ∈ Finset.univ.erase i, K θ (σ j) j) * Kd (σ i) i) θ := by
    intro σ
    have hp := HasDerivAt.finset_prod
      (fun i (_ : i ∈ (Finset.univ : Finset (Fin nn))) => hK (σ i) i)
    have hp2 : HasDerivAt (fun t => ∏ i, K t (σ i) i)
        (∑ i, (∏ j ∈ Finset.univ.erase i, K θ (σ j) j) * Kd (σ i) i) θ := by
      simpa [smul_eq_mul] using hp
    exact hp2.const_mul _
  have hsum := HasDerivAt.sum
    (fun σ (_ : σ ∈ (Finset.univ : Finset (Equiv.Perm (Fin nn)))) => hσ σ)
  convert hsum using 1
  rw [trace_adjugate_mul_eq_sum_det,
    Finset.sum_congr rfl fun i _ => det_updateColumn_expand (K θ) (fun r => Kd r i) i,
    Finset.sum_comm]
  refine Finset.sum_congr rfl fun σ _ => ?_
  rw [Finset.mul_sum]

theorem hasDerivAt_adjugate_entry {nn : ℕ} (K : ℝ → Matrix (Fin nn) (Fin nn) ℝ)
    (Kd : Matrix (Fin nn) (Fin nn) ℝ) (θ : ℝ)
    (hK : ∀ i j, HasDerivAt (fun t => K t i j) (Kd i j) θ) (i j : Fin nn) :
    HasDerivAt (fun t => Matrix.adjugate (K t) i j)
      (Matrix.trace (Matrix.adjugate ((K θ).updateRow j (Pi.single i 1)) *
        Kd.updateRow j 0)) θ := by
  have hfun : (fun t => Matrix.adjugate (K t) i j) =
      fun t => ((K t).updateRow j (Pi.single i 1)).det := by
    funext t
    rw [Matrix.adjugate_apply]
  rw [hfun]
  refine hasDerivAt_det (fun t => (K t).updateRow j (Pi.single i 1)) _ θ ?_
  intro r s
  by_cases hr : r = j
  · have hfun2 : (fun t => ((K t).updateRow j (Pi.single i 1)) r s) =
        fun _ : ℝ => (Pi.single i 1 : Fin nn → ℝ) s := by
      funext t
      rw [Matrix.updateRow_apply, if_pos hr]
    have hval : (Kd.updateRow j 0) r s = 0 := by
      rw [Matrix.updateRow_apply, if_pos hr]
      rfl
    rw [hfun2, hval]
    exact hasDerivAt_const θ _
  · have hfun2 : (fun t => ((K t).updateRow j (Pi.single i 1)) r s) =
        fun t => K t r s := by
      funext t
      rw [Matrix.updateRow_apply, if_neg hr]
    have hval : (Kd.updateRow j 0) r s = Kd r s := by
      rw [Matrix.updateRow_apply, if_neg hr]
    rw [hfun2, hval]
    exact hK r s

theorem differentiableAt_inv_entry {nn : ℕ} (K : ℝ → Matrix (Fin nn) (Fin nn) ℝ)
    (Kd : Matrix (Fin nn) (Fin nn) ℝ) (θ : ℝ)
    (hK : ∀ i j, HasDerivAt (fun t => K t i j) (Kd i j) θ)
    (hdet : (K θ).det ≠ 0) (i j : Fin nn) :
    DifferentiableAt ℝ (fun t => (K t)⁻¹ i j) θ := by
  have hfun : (fun t => (K t)⁻¹ i j) =
      fun t => ((K t).det)⁻¹ * Matrix.adjugate (K t) i j := by
    funext t
    rw [Matrix.inv_def]
    simp [Ring.inverse_eq_inv, Matrix.smul_apply, smul_eq_mul]
  rw [hfun]
  have hdetD := hasDerivAt_det K Kd θ hK
  have hadjD := hasDerivAt_adjugate_entry K Kd θ hK i j
  exact (hdetD.differentiableAt.inv hdet).mul hadjD.differentiableAt

/-- The derivative of the entries of the inverse of a matrix family:
`d/dt (K t)⁻¹ = -K⁻¹ * (dK/dt) * K⁻¹` at an invertible point. -/
theorem hasDerivAt_inv_entries {nn : ℕ} (K : ℝ → Matrix (Fin nn) (Fin nn) ℝ)
    (Kd : Matrix (Fin nn) (Fin nn) ℝ) (θ : ℝ)
    (hK : ∀ i j, HasDerivAt (fun t => K t i j) (Kd i j) θ)
    (hdet : (K θ).det ≠ 0) (i j : Fin nn) :
    HasDerivAt (fun t => (K t)⁻¹ i j)
      ((-((K θ)⁻¹ * Kd * (K θ)⁻¹)) i j) θ := by
  classical
  set D : Matrix (Fin nn) (Fin nn) ℝ :=
    Matrix.of fun p q => deriv (fun t => (K t)⁻¹ p q) θ with hD
  have hDD : ∀ p q, HasDerivAt (fun t => (K t)⁻¹ p q) (D p q) θ := fun p q =>
    (differentiableAt_inv_entry K Kd θ hK hdet p q).hasDerivAt
  have hprod : ∀ p q, HasDerivAt (fun t => ∑ r, K t p r * (K t)⁻¹ r q)
      ((Kd * (K θ)⁻¹ + K θ * D) p q) θ := by
    intro p q
    have hs := HasDerivAt.sum (fun r (_ : r ∈ (Finset.univ : Finset (Fin nn))) =>
      (hK p r).mul (hDD r q))
    convert hs using 1
    simp [Matrix.add_apply, Matrix.mul_apply, Finset.sum_add_distrib]
  have hev : ∀ᶠ t in 𝓝 θ, (K t).det ≠ 0 :=
    (hasDerivAt_det K Kd θ hK).continuousAt.eventually_ne hdet
  have hconst : ∀ p q : Fin nn,
      HasDerivAt (fun t => ∑ r, K t p r * (K t)⁻¹ r q) 0 θ := by
    intro p q
    refine HasDerivAt.congr_of_eventuallyEq
      (hasDerivAt_const θ ((1 : Matrix (Fin nn) (Fin nn) ℝ) p q)) ?_
    filter_upwards [hev] with t ht
    have h1 : K t * (K t)⁻¹ = 1 := Matrix.mul_nonsing_inv _ (isUnit_iff_ne_zero.mpr ht)
    calc ∑ r, K t p r * (K t)⁻¹ r q = (K t * (K t)⁻¹) p q := by
          rw [Matrix.mul_apply]
      _ = (1 : Matrix (Fin nn) (Fin nn) ℝ) p q := by rw [h1]
  have hzero : Kd * (K θ)⁻¹ + K θ * D = 0 := by
    ext p q
    have huniq := (hprod p q).unique (hconst p q)
    simpa using huniq
  have hsolve : D = -((K θ)⁻¹ * Kd * (K θ)⁻¹) := by
    have h2 : K θ * D = -(Kd * (K θ)⁻¹) := eq_neg_of_add_eq_zero_right hzero
    calc D = ((K θ)⁻¹ * K θ) * D := by
          rw [Matrix.nonsing_inv_mul _ (isUnit_iff_ne_zero.mpr hdet), Matrix.one_mul]
      _ = (K θ)⁻¹ * (K θ * D) := by rw [Matrix.mul_assoc]
      _ = (K θ)⁻¹ * -(Kd * (K θ)⁻¹) := by rw [h2]
      _ = -((K θ)⁻¹ * Kd * (K θ)⁻¹) := by rw [Matrix.mul_neg, Matrix.mul_assoc]
  rw [← hsolve]
  exact hDD i j

theorem trace_vecMulVec_mul {nn : ℕ} (a b : Fin nn → ℝ)
    (N : Matrix (Fin nn) (Fin nn) ℝ) :
    Matrix.trace (vecMulVec a b * N) = b ⬝ᵥ (N *ᵥ a) := by
  simp only [Matrix.trace, Matrix.diag, Matrix.mul_apply, Matrix.vecMulVec_apply,
    dotProduct, Matrix.mulVec]
  rw [Finset.sum_comm]
  refine Finset.sum_congr rfl fun q _ => ?_
  rw [Finset.mul_sum]
  refine Finset.sum_congr rfl fun p _ => ?_
  ring

theorem vecMul_symm {nn : ℕ} (M : Matrix (Fin nn) (Fin nn) ℝ) (hsym : Mᵀ = M)
    (y : Fin nn → ℝ) : Matrix.vecMul y M = M *ᵥ y := by
  funext p
  simp only [Matrix.vecMul, Matrix.mulVec, dotProduct]
  refine Finset.sum_congr rfl fun i _ => ?_
  have h := congrFun (congrFun hsym p) i
  simp only [Matrix.transpose_apply] at h
  rw [← h]
  ring

theorem inv_symm {nn : ℕ} (M : Matrix (Fin nn) (Fin nn) ℝ) (hsym : Mᵀ = M) :
    (M⁻¹)ᵀ = M⁻¹ := by
  rw [Matrix.transpose_nonsing_inv, hsym]

theorem dot_sandwich_eq_trace {nn : ℕ} (M Kd : Matrix (Fin nn) (Fin nn) ℝ)
    (y : Fin nn → ℝ) (hsym : Mᵀ = M) :
    y ⬝ᵥ ((M⁻¹ * Kd * M⁻¹) *ᵥ y) =
      Matrix.trace (vecMulVec (M⁻¹ *ᵥ y) (M⁻¹ *ᵥ y) * Kd) := by
  rw [trace_vecMulVec_mul]
  have hv : (M⁻¹ * Kd * M⁻¹) *ᵥ y = M⁻¹ *ᵥ (Kd *ᵥ (M⁻¹ *ᵥ y)) := by
    rw [Matrix.mulVec_mulVec, Matrix.mulVec_mulVec]
  rw [hv, Matrix.dotProduct_mulVec, vecMul_symm _ (inv_symm M hsym)]

theorem trace_adjugate_div {nn : ℕ} (M N : Matrix (Fin nn) (Fin nn) ℝ)
    (hdet : M.det ≠ 0) :
    Matrix.trace (Matrix.adjugate M * N) / M.det = Matrix.trace (M⁻¹ * N) := by
  have hadj : Matrix.adjugate M = M.det • M⁻¹ := by
    rw [Matrix.inv_def, Ring.inverse_eq_inv, smul_smul, mul_inv_cancel₀ hdet, one_smul]
  rw [hadj, Matrix.smul_mul, Matrix.trace_smul, smul_eq_mul]
  field_simp

theorem nllGradEntry_eq_neg_spec {nn : ℕ} (K N : Matrix (Fin nn) (Fin nn) ℝ)
    (y : Fin nn → ℝ) :
    nllGradEntry K N y = -specClaimGradEntry K N y := by
  simp only [nllGradEntry, specClaimGradEntry]
  rw [← neg_sub, Matrix.neg_mul, Matrix.trace_neg]
  ring

/-- **C3 (amended)**: for a differentiable symmetric covariance family with
positive determinant, the derivative of the negative log-likelihood with
respect to a hyperparameter is `0.5*trace((K⁻¹ - alpha*alphaᵀ)*dK)` — the
NEGATIVE of the formula the spec sentence states — and the central
finite-difference quotients of `neg_log_likelihood` converge to exactly this
value; moreover the modelled `neg_log_likelihood_gradient` returns one such
scalar per hyperparameter (noise first). -/
theorem neg_log_likelihood_gradient_amended {nn : ℕ}
    (K : ℝ → Matrix (Fin nn) (Fin nn) ℝ) (Kd : Matrix (Fin nn) (Fin nn) ℝ)
    (θ : ℝ) (y : Fin nn → ℝ)
    (hK : ∀ i j, HasDerivAt (fun t => K t i j) (Kd i j) θ)
    (hsym : (K θ)ᵀ = K θ) (hpd : 0 < (K θ).det) :
    HasDerivAt (fun t => nllCore (K t) y) (nllGradEntry (K θ) Kd y) θ ∧
      Tendsto (fun ε => (nllCore (K (θ + ε)) y - nllCore (K (θ - ε)) y) / (2 * ε))
        (𝓝[≠] (0 : ℝ)) (𝓝 (nllGradEntry (K θ) Kd y)) ∧
      nllGradEntry (K θ) Kd y = -specClaimGradEntry (K θ) Kd y ∧
      (∀ (gp : GP) (td : List (ℝ × ℝ)), gp.training = some td →
        gp.neg_log_likelihood_gradient =
          List.ofFn fun h : Fin (gp.cov.count + 1) =>
            nllGradEntry (dataCov gp.cov.k gp.logNoise (locs td))
              (gp.dDataCov td h.val) (outs td)) := by
  have hq : HasDerivAt (fun t => y ⬝ᵥ ((K t)⁻¹ *ᵥ y))
      (y ⬝ᵥ ((-((K θ)⁻¹ * Kd * (K θ)⁻¹)) *ᵥ y)) θ := by
    have hinv := fun i j => hasDerivAt_inv_entries K Kd θ hK (ne_of_gt hpd) i j
    have hrow : ∀ i, HasDerivAt (fun t => ∑ j, (K t)⁻¹ i j * y j)
        (∑ j, (-((K θ)⁻¹ * Kd * (K θ)⁻¹)) i j * y j) θ := fun i =>
      HasDerivAt.sum fun j _ => (hinv i j).mul_const (y j)
    have hfull : HasDerivAt (fun t => ∑ i, y i * ∑ j, (K t)⁻¹ i j * y j)
        (∑ i, y i * ∑ j, (-((K θ)⁻¹ * Kd * (K θ)⁻¹)) i j * y j) θ :=
      HasDerivAt.sum fun i _ => (hrow i).const_mul (y i)
    have hfe : (fun t => y ⬝ᵥ ((K t)⁻¹ *ᵥ y)) =
        fun t => ∑ i, y i * ∑ j, (K t)⁻¹ i j * y j := by
      funext t
      simp [dotProduct, Matrix.mulVec]
    rw [hfe]
    convert hfull using 1
  have hlog : HasDerivAt (fun t => Real.log ((K t).det))
      (Matrix.trace (Matrix.adjugate (K θ) * Kd) / (K θ).det) θ :=
    (hasDerivAt_det K Kd θ hK).log (ne_of_gt hpd)
  have hval : (y ⬝ᵥ ((-((K θ)⁻¹ * Kd * (K θ)⁻¹)) *ᵥ y) +
      Matrix.trace (Matrix.adjugate (K θ) * Kd) / (K θ).det) / 2 =
      nllGradEntry (K θ) Kd y := by
    rw [Matrix.neg_mulVec, dotProduct_neg, dot_sandwich_eq_trace _ _ _ hsym,
      trace_adjugate_div _ _ (ne_of_gt hpd)]
    simp only [nllGradEntry]
    rw [Matrix.sub_mul, Matrix.trace_sub]
    ring
  have hnll : HasDerivAt (fun t => nllCore (K t) y) (nllGradEntry (K θ) Kd y) θ := by
    have hfe : (fun t => nllCore (K t) y) =
        fun t => (y ⬝ᵥ ((K t)⁻¹ *ᵥ y) + Real.log ((K t).det) +
          nn * Real.log (2 * π)) / 2 := rfl
    rw [hfe, ← hval]
    exact ((hq.add hlog).add_const (nn * Real.log (2 * π))).div_const 2
  refine ⟨hnll, ?_, nllGradEntry_eq_neg_spec _ _ _, ?_⟩
  · exact @tendsto_centralDiff (fun t => nllCore (K t) y) _ _ hnll
  · intro gp td htr
    simp [GP.neg_log_likelihood_gradient, htr]

/-- Witness for the amended C3 at the concrete one-dimensional family
`K(t) = [[t]]` with training output 2 at the point `θ = 1`. -/
theorem neg_log_likelihood_gradient_amended_witness :
    HasDerivAt (fun t => nllCore ((fun s => Matrix.of fun _ _ : Fin 1 => s) t) ![(2 : ℝ)])
        (nllGradEntry ((fun s => Matrix.of fun _ _ : Fin 1 => s) (1 : ℝ))
          (Matrix.of fun _ _ : Fin 1 => (1 : ℝ)) ![(2 : ℝ)]) 1 ∧
      Tendsto (fun ε => (nllCore ((fun s => Matrix.of fun _ _ : Fin 1 => s) (1 + ε)) ![(2 : ℝ)] -
          nllCore ((fun s => Matrix.of fun _ _ : Fin 1 => s) (1 - ε)) ![(2 : ℝ)]) / (2 * ε))
        (𝓝[≠] (0 : ℝ))
        (𝓝 (nllGradEntry ((fun s => Matrix.of fun _ _ : Fin 1 => s) (1 : ℝ))
          (Matrix.of fun _ _ : Fin 1 => (1 : ℝ)) ![(2 : ℝ)])) ∧
      nllGradEntry ((fun s => Matrix.of fun _ _ : Fin 1 => s) (1 : ℝ))
          (Matrix.of fun _ _ : Fin 1 => (1 : ℝ)) ![(2 : ℝ)] =
        -specClaimGradEntry ((fun s => Matrix.of fun _ _ : Fin 1 => s) (1 : ℝ))
          (Matrix.of fun _ _ : Fin 1 => (1 : ℝ)) ![(2 : ℝ)] ∧
      (∀ (gp : GP) (td : List (ℝ × ℝ)), gp.training = some td →
        gp.neg_log_likelihood_gradient =
          List.ofFn fun h : Fin (gp.cov.count + 1) =>
            nllGradEntry (dataCov gp.cov.k gp.logNoise (locs td))
              (gp.dDataCov td h.val) (outs td)) :=
  neg_log_likelihood_gradient_amended (fun s => Matrix.of fun _ _ : Fin 1 => s)
    (Matrix.of fun _ _ : Fin 1 => (1 : ℝ)) 1 ![(2 : ℝ)]
    (fun _ _ => hasDerivAt_id 1) rfl
    (by rw [Matrix.det_fin_one]; norm_num)

/-- **C3 counterexample**: at the one-point family `K(t) = [[t]]` with output
2 at `θ = 1`, the negative log-likelihood has derivative `-3/2` (so the
finite-difference gradient is near `-3/2`), while the spec's literal formula
`0.5*trace((alpha*alphaᵀ - K⁻¹)*dK)` evaluates to `+3/2`: the claim's
formula has the wrong sign and cannot match the finite-difference gradient
within 1e-4 relative error. -/
theorem neg_log_likelihood_gradient_counterexample :
    HasDerivAt (fun t => nllCore (Matrix.of fun _ _ : Fin 1 => t) ![(2 : ℝ)])
        (-(3 / 2)) 1 ∧
      specClaimGradEntry (Matrix.of fun _ _ : Fin 1 => (1 : ℝ))
          (Matrix.of fun _ _ : Fin 1 => (1 : ℝ)) ![(2 : ℝ)] = 3 / 2 ∧
      nllGradEntry (Matrix.of fun _ _ : Fin 1 => (1 : ℝ))
          (Matrix.of fun _ _ : Fin 1 => (1 : ℝ)) ![(2 : ℝ)] = -(3 / 2) ∧
      ((-(3 / 2) : ℝ) ≠ 3 / 2) := by
  refine ⟨?_, ?_, ?_, by norm_num⟩
  · have hfe : (fun t => nllCore (Matrix.of fun _ _ : Fin 1 => t) ![(2 : ℝ)]) =
        fun t => (2 * (t⁻¹ * 2) + Real.log t + 1 * Real.log (2 * π)) / 2 := by
      funext t
      simp [nllCore, inv_one_dim t, Matrix.det_fin_one, Matrix.mulVec, dotProduct,
        Fin.sum_univ_one]
    rw [hfe]
    have h1 : HasDerivAt (fun t : ℝ => t⁻¹) (-((1 : ℝ) ^ 2)⁻¹) 1 :=
      hasDerivAt_inv one_ne_zero
    have hq := (h1.mul_const (2 : ℝ)).const_mul (2 : ℝ)
    have hlog := Real.hasDerivAt_log one_ne_zero
    have hsum := ((hq.add hlog).add_const (1 * Real.log (2 * π))).div_const 2
    convert hsum using 1
    norm_num
  · simp [specClaimGradEntry, inv_one_dim, Matrix.trace, Matrix.diag,
      Matrix.mul_apply, Matrix.vecMulVec_apply, Matrix.mulVec, dotProduct,
      Fin.sum_univ_one, Matrix.sub_apply]
    norm_num
  · simp [nllGradEntry, inv_one_dim, Matrix.trace, Matrix.diag,
      Matrix.mul_apply, Matrix.vecMulVec_apply, Matrix.mulVec, dotProduct,
      Fin.sum_univ_one, Matrix.sub_apply]
    norm_num

end

end GPV
